import Mathlib

/-!
Verification of the phrase-modeling pipeline described by the repository's
specification.  The repository's only source file (`phrase_modeling.ipynb`)
delegates the phrase scoring/merging engine to an external library; the
specification reconstructs that engine (Vocabulary Counter, Phrase Scorer,
Phrase Merger).  Those components are modelled here from the specification,
while the notebook's own helper functions (`punct_space`,
`lemmatized_sentence_corpus`, the sentence-writing loop) are embedded from
the source.
-/

/-- A Token is an opaque string identifier. -/
abbrev Token : Type := String

/-- A Sentence is an ordered sequence of Tokens. -/
abbrev Sentence : Type := List Token

/-- A Corpus is a finite ordered collection of Sentences. -/
abbrev Corpus : Type := List Sentence

/-- Modelled from the spec: Vocabulary Counts are a mapping from Token to
occurrence count (unigram counts) and a mapping from ordered Token pair to
occurrence count (bigram counts).  The Counter itself is absent from the
source (delegated to an external library). -/
structure VocabCounts where
  uni : Token → Nat
  bi : Token × Token → Nat

/-- Modelled from the spec: the all-zero counts the Counter starts from. -/
def emptyCounts : VocabCounts := ⟨fun _ => 0, fun _ => 0⟩

/-- Modelled from the spec: increment the unigram count of one Token. -/
def incUni (vc : VocabCounts) (a : Token) : VocabCounts :=
  { vc with uni := fun t => if t = a then vc.uni t + 1 else vc.uni t }

/-- Modelled from the spec: increment the bigram count of one ordered pair. -/
def incBi (vc : VocabCounts) (p : Token × Token) : VocabCounts :=
  { vc with bi := fun q => if q = p then vc.bi q + 1 else vc.bi q }

/-- Modelled from the spec: the ordered pairs of adjacent Tokens of a
Sentence (a sentence with zero or one token has no bigrams). -/
def bigrams : List Token → List (Token × Token)
  | a :: b :: rest => (a, b) :: bigrams (b :: rest)
  | _ => []

/-- Modelled from the spec: the Counter processes one Sentence, incrementing
the unigram count of every Token and the bigram count of every adjacent
Token pair. -/
def countSentence (vc : VocabCounts) (s : Sentence) : VocabCounts :=
  (bigrams s).foldl incBi (s.foldl incUni vc)

/-- Modelled from the spec: the Vocabulary Counter streams the Corpus once,
Sentence by Sentence, accumulating counts from the empty counts. -/
def countCorpus (c : Corpus) : VocabCounts :=
  c.foldl countSentence emptyCounts

theorem foldl_incUni_uni (s : List Token) :
    ∀ (vc : VocabCounts) (t : Token),
      (s.foldl incUni vc).uni t = vc.uni t + s.count t := by
  induction s with
  | nil => intro vc t; simp [List.count]
  | cons a rest ih =>
    intro vc t
    simp only [List.foldl_cons, ih, incUni, List.count_cons]
    by_cases h : t = a
    · subst h; simp; omega
    · simp [h, Ne.symm h]

theorem foldl_incUni_bi (s : List Token) :
    ∀ (vc : VocabCounts) (p : Token × Token),
      (s.foldl incUni vc).bi p = vc.bi p := by
  induction s with
  | nil => intro vc p; rfl
  | cons a rest ih => intro vc p; simp only [List.foldl_cons, ih, incUni]

theorem foldl_incBi_bi (l : List (Token × Token)) :
    ∀ (vc : VocabCounts) (p : Token × Token),
      (l.foldl incBi vc).bi p = vc.bi p + l.count p := by
  induction l with
  | nil => intro vc p; simp [List.count]
  | cons q rest ih =>
    intro vc p
    simp only [List.foldl_cons, ih, incBi, List.count_cons]
    by_cases h : p = q
    · subst h; simp; omega
    · simp [h, Ne.symm h]

theorem foldl_incBi_uni (l : List (Token × Token)) :
    ∀ (vc : VocabCounts) (t : Token),
      (l.foldl incBi vc).uni t = vc.uni t := by
  induction l with
  | nil => intro vc t; rfl
  | cons q rest ih => intro vc t; simp only [List.foldl_cons, ih, incBi]

theorem countSentence_uni (vc : VocabCounts) (s : Sentence) (t : Token) :
    (countSentence vc s).uni t = vc.uni t + s.count t := by
  unfold countSentence
  rw [foldl_incBi_uni, foldl_incUni_uni]

theorem countSentence_bi (vc : VocabCounts) (s : Sentence) (p : Token × Token) :
    (countSentence vc s).bi p = vc.bi p + (bigrams s).count p := by
  unfold countSentence
  rw [foldl_incBi_bi, foldl_incUni_bi]

theorem foldl_countSentence_uni (c : Corpus) :
    ∀ (vc : VocabCounts) (t : Token),
      (c.foldl countSentence vc).uni t
        = vc.uni t + (c.map (fun s => s.count t)).sum := by
  induction c with
  | nil => intro vc t; simp
  | cons s rest ih =>
    intro vc t
    simp only [List.foldl_cons, ih, countSentence_uni, List.map_cons,
      List.sum_cons]
    omega

theorem foldl_countSentence_bi (c : Corpus) :
    ∀ (vc : VocabCounts) (p : Token × Token),
      (c.foldl countSentence vc).bi p
        = vc.bi p + (c.map (fun s => (bigrams s).count p)).sum := by
  induction c with
  | nil => intro vc p; simp
  | cons s rest ih =>
    intro vc p
    simp only [List.foldl_cons, ih, countSentence_bi, List.map_cons,
      List.sum_cons]
    omega

theorem countCorpus_uni (c : Corpus) (t : Token) :
    (countCorpus c).uni t = (c.map (fun s => s.count t)).sum := by
  unfold countCorpus
  rw [foldl_countSentence_uni]
  simp [emptyCounts]

theorem countCorpus_bi (c : Corpus) (p : Token × Token) :
    (countCorpus c).bi p = (c.map (fun s => (bigrams s).count p)).sum := by
  unfold countCorpus
  rw [foldl_countSentence_bi]
  simp [emptyCounts]

/-- Modelled from the spec: the error taxonomy of the reconstructed engine
(the engine itself is absent from the source). -/
inductive PipelineError where
  | configurationError
  | inputValidationError
deriving DecidableEq

/-- Modelled from the spec: the Phrase Scorer's configuration, holding the
tunables `min_count` (integer), `threshold` (rational) and the corpus
vocabulary size `N`. -/
structure ScorerConfig where
  threshold : ℚ
  min_count : ℤ
  N : ℕ

/-- Modelled from the spec: Scorer construction rejects `threshold ≤ 0` and
`min_count < 0` with a ConfigurationError and otherwise succeeds. -/
def mkScorer (threshold : ℚ) (min_count : ℤ) (N : ℕ) :
    Except PipelineError ScorerConfig :=
  if threshold ≤ 0 ∨ min_count < 0 then
    Except.error PipelineError.configurationError
  else
    Except.ok ⟨threshold, min_count, N⟩

/-- Modelled from the spec: the collocation score
`(count(A,B) - min_count) / (count(A) * count(B)) * N`, computed over the
rationals. -/
def phraseScore (cfg : ScorerConfig) (cA cB cAB : ℕ) : ℚ :=
  ((cAB : ℚ) - (cfg.min_count : ℚ)) / ((cA : ℚ) * (cB : ℚ)) * (cfg.N : ℚ)

/-- Modelled from the spec: the Scorer's acceptance decision.  A pair whose
unigram denominator would be zero is skipped outright; otherwise the pair is
accepted iff its score strictly exceeds the threshold and its bigram count
reaches `min_count`. -/
def acceptsPair (cfg : ScorerConfig) (cA cB cAB : ℕ) : Bool :=
  if cA = 0 ∨ cB = 0 then
    false
  else
    decide (cfg.threshold < phraseScore cfg cA cB cAB)
      && decide (cfg.min_count ≤ (cAB : ℤ))

/-- Modelled from the spec: deterministic concatenation of the two tokens of
an accepted phrase with a fixed underscore separator. -/
def mergedToken (a b : Token) : Token := a ++ "_" ++ b

/-- Modelled from the spec: the ordered token pairs occurring adjacently
somewhere in the corpus, i.e. exactly the bigrams with positive count. -/
def candidateBigrams (c : Corpus) : List (Token × Token) :=
  ((c.map bigrams).flatten).dedup

/-- Modelled from the spec: training the Phrase Table keeps exactly the
candidate bigrams the Scorer accepts under the corpus counts. -/
def trainPhraseTable (cfg : ScorerConfig) (c : Corpus) : List (Token × Token) :=
  (candidateBigrams c).filter fun p =>
    acceptsPair cfg ((countCorpus c).uni p.1) ((countCorpus c).uni p.2)
      ((countCorpus c).bi p)

/-- Modelled from the spec: the Phrase Merger's left-to-right greedy scan.
At each position, if the current and next token form a key of the table the
merged token is emitted and the cursor advances two positions; otherwise the
current token is emitted and the cursor advances one position. -/
def mergeSentence (T : List (Token × Token)) : Sentence → Sentence
  | [] => []
  | [a] => [a]
  | a :: b :: rest =>
    if (a, b) ∈ T then mergedToken a b :: mergeSentence T rest
    else a :: mergeSentence T (b :: rest)

/-- Modelled from the spec: the decomposition of the input into the one- or
two-token groups the Merger's scan consumes. -/
def mergeChunks (T : List (Token × Token)) : Sentence → List (List Token)
  | [] => []
  | [a] => [[a]]
  | a :: b :: rest =>
    if (a, b) ∈ T then [a, b] :: mergeChunks T rest
    else [a] :: mergeChunks T (b :: rest)

/-- Modelled from the spec: the single output token produced from one
consumed group. -/
def renderChunk : List Token → Token
  | [a, b] => mergedToken a b
  | [a] => a
  | _ => ""

theorem bigrams_map_fst_sublist :
    ∀ s : List Token, List.Sublist ((bigrams s).map Prod.fst) s
  | [] => by simp [bigrams]
  | [a] => by simp [bigrams]
  | a :: b :: rest => by
    simp only [bigrams, List.map_cons]
    exact List.Sublist.cons₂ a (bigrams_map_fst_sublist (b :: rest))

theorem bigrams_map_snd_sublist_tail :
    ∀ s : List Token, List.Sublist ((bigrams s).map Prod.snd) s.tail
  | [] => by simp [bigrams]
  | [a] => by simp [bigrams]
  | a :: b :: rest => by
    simp only [bigrams, List.map_cons, List.tail_cons]
    exact List.Sublist.cons₂ b (bigrams_map_snd_sublist_tail (b :: rest))

theorem count_bigrams_le_fst (s : List Token) (x y : Token) :
    (bigrams s).count (x, y) ≤ s.count x :=
  calc (bigrams s).count (x, y)
      ≤ ((bigrams s).map Prod.fst).count x := by
        simpa using List.count_le_count_map (bigrams s) Prod.fst (x, y)
    _ ≤ s.count x := (bigrams_map_fst_sublist s).count_le x

theorem count_bigrams_le_snd (s : List Token) (x y : Token) :
    (bigrams s).count (x, y) ≤ s.count y :=
  calc (bigrams s).count (x, y)
      ≤ ((bigrams s).map Prod.snd).count y := by
        simpa using List.count_le_count_map (bigrams s) Prod.snd (x, y)
    _ ≤ s.tail.count y := (bigrams_map_snd_sublist_tail s).count_le y
    _ ≤ s.count y := (List.tail_sublist s).count_le y

theorem countCorpus_bi_le_uni_fst (c : Corpus) (x y : Token) :
    (countCorpus c).bi (x, y) ≤ (countCorpus c).uni x := by
  rw [countCorpus_bi, countCorpus_uni]
  exact List.sum_le_sum fun s _ => count_bigrams_le_fst s x y

theorem countCorpus_bi_le_uni_snd (c : Corpus) (x y : Token) :
    (countCorpus c).bi (x, y) ≤ (countCorpus c).uni y := by
  rw [countCorpus_bi, countCorpus_uni]
  exact List.sum_le_sum fun s _ => count_bigrams_le_snd s x y

theorem mergeSentence_empty_table : ∀ s : Sentence, mergeSentence [] s = s
  | [] => rfl
  | [_] => rfl
  | a :: b :: rest => by
    simp only [mergeSentence, List.not_mem_nil, if_false]
    rw [mergeSentence_empty_table (b :: rest)]

theorem mergeChunks_flatten (T : List (Token × Token)) :
    ∀ s : Sentence, (mergeChunks T s).flatten = s
  | [] => rfl
  | [_] => rfl
  | a :: b :: rest => by
    by_cases h : (a, b) ∈ T
    · simp [mergeChunks, h, mergeChunks_flatten T rest]
    · simp [mergeChunks, h, mergeChunks_flatten T (b :: rest)]

theorem mergeSentence_eq_map_renderChunk (T : List (Token × Token)) :
    ∀ s : Sentence, mergeSentence T s = (mergeChunks T s).map renderChunk
  | [] => rfl
  | [_] => rfl
  | a :: b :: rest => by
    by_cases h : (a, b) ∈ T
    · simp [mergeSentence, mergeChunks, h, renderChunk,
        mergeSentence_eq_map_renderChunk T rest]
    · simp [mergeSentence, mergeChunks, h, renderChunk,
        mergeSentence_eq_map_renderChunk T (b :: rest)]

theorem mergeChunks_shape (T : List (Token × Token)) :
    ∀ s : Sentence, ∀ ch ∈ mergeChunks T s,
      (∃ a, ch = [a]) ∨ ∃ a b, ch = [a, b] ∧ (a, b) ∈ T
  | [] => by simp [mergeChunks]
  | [a] => by
    intro ch hch
    simp only [mergeChunks, List.mem_singleton] at hch
    exact Or.inl ⟨a, hch⟩
  | a :: b :: rest => by
    intro ch hch
    by_cases h : (a, b) ∈ T
    · rw [mergeChunks, if_pos h] at hch
      rcases List.mem_cons.mp hch with hch | hch
      · exact Or.inr ⟨a, b, hch, h⟩
      · exact mergeChunks_shape T rest ch hch
    · rw [mergeChunks, if_neg h] at hch
      rcases List.mem_cons.mp hch with hch | hch
      · exact Or.inl ⟨a, hch⟩
      · exact mergeChunks_shape T (b :: rest) ch hch

theorem mergeSentence_length_le (T : List (Token × Token)) :
    ∀ s : Sentence, (mergeSentence T s).length ≤ s.length
  | [] => le_refl _
  | [_] => le_refl _
  | a :: b :: rest => by
    by_cases h : (a, b) ∈ T
    · have ih := mergeSentence_length_le T rest
      simp only [mergeSentence, if_pos h, List.length_cons]
      omega
    · have ih := mergeSentence_length_le T (b :: rest)
      simp only [mergeSentence, if_neg h, List.length_cons] at *
      omega

theorem mergeSentence_length_lower (T : List (Token × Token)) :
    ∀ s : Sentence, (s.length + 1) / 2 ≤ (mergeSentence T s).length
  | [] => by simp [mergeSentence]
  | [_] => by simp [mergeSentence]
  | a :: b :: rest => by
    by_cases h : (a, b) ∈ T
    · have ih := mergeSentence_length_lower T rest
      simp only [mergeSentence, if_pos h, List.length_cons]
      omega
    · have ih := mergeSentence_length_lower T (b :: rest)
      simp only [mergeSentence, if_neg h, List.length_cons] at *
      omega

theorem sum_map_pos_iff {α : Type} (c : List α) (f : α → ℕ) :
    0 < (c.map f).sum ↔ ∃ s ∈ c, 0 < f s := by
  induction c with
  | nil => simp
  | cons s rest ih =>
    simp only [List.map_cons, List.sum_cons, List.mem_cons]
    rw [add_pos_iff, ih]
    constructor
    · rintro (hs | ⟨x, hx, hfx⟩)
      · exact ⟨s, Or.inl rfl, hs⟩
      · exact ⟨x, Or.inr hx, hfx⟩
    · rintro ⟨x, hx | hx, hfx⟩
      · subst hx; exact Or.inl hfx
      · exact Or.inr ⟨x, hx, hfx⟩

theorem mem_candidateBigrams (c : Corpus) (p : Token × Token) :
    p ∈ candidateBigrams c ↔ 0 < (countCorpus c).bi p := by
  rw [countCorpus_bi]
  unfold candidateBigrams
  rw [List.mem_dedup, List.mem_flatten, sum_map_pos_iff]
  constructor
  · rintro ⟨l, hl, hp⟩
    obtain ⟨s, hs, rfl⟩ := List.mem_map.mp hl
    exact ⟨s, hs, List.count_pos_iff.mpr hp⟩
  · rintro ⟨s, hs, hpos⟩
    exact ⟨bigrams s, List.mem_map.mpr ⟨s, hs, rfl⟩, List.count_pos_iff.mp hpos⟩

/-- A parsed spaCy token as the notebook's helpers consume it: its lemma and
its punctuation/whitespace flags. -/
structure SpacyToken where
  lemma_ : String
  is_punct : Bool
  is_space : Bool
deriving DecidableEq

/-- Helper function from the source to eliminate tokens that are pure
punctuation or whitespace: `token.is_punct or token.is_space`. -/
def punct_space (token : SpacyToken) : Bool :=
  token.is_punct || token.is_space

/-- From the source, the sentence expression inside
`lemmatized_sentence_corpus`: the space-join of the lemmas of the tokens of
the sentence that are not punctuation or whitespace. -/
def lemmaSentenceString (sent : List SpacyToken) : String :=
  " ".intercalate ((sent.filter fun token => !(punct_space token)).map
    SpacyToken.lemma_)

/-- From the source: `lemmatized_sentence_corpus` iterates over the parsed
reviews and yields, for each sentence of each review in order, its
space-joined lemmatized string.  A parsed review is modelled as its list of
parsed sentences, each a list of spaCy tokens. -/
def lemmatized_sentence_corpus
    (reviews : List (List (List SpacyToken))) : List String :=
  (reviews.map fun parsed_review =>
      parsed_review.map fun sent => lemmaSentenceString sent).flatten

/-- From the source (the unigram-sentence writing loop): each yielded
sentence is written followed by a newline. -/
def writeSentences : List String → String
  | [] => ""
  | sentence :: rest => sentence ++ "\n" ++ writeSentences rest

/-- C1: for every bigram (A,B) with positive corpus count, the Scorer's
score is exactly `(count(A,B) - min_count) / (count(A) * count(B)) * N`,
and (A,B) is placed in the Phrase Table iff that score strictly exceeds the
threshold (ties rejected) and `count(A,B) ≥ min_count`. -/
theorem claim1_scorer_decision (cfg : ScorerConfig) (c : Corpus) (A B : Token)
    (h : 0 < (countCorpus c).bi (A, B)) :
    phraseScore cfg ((countCorpus c).uni A) ((countCorpus c).uni B)
        ((countCorpus c).bi (A, B))
      = (((countCorpus c).bi (A, B) : ℚ) - (cfg.min_count : ℚ))
          / (((countCorpus c).uni A : ℚ) * ((countCorpus c).uni B : ℚ))
          * (cfg.N : ℚ)
    ∧ ((A, B) ∈ trainPhraseTable cfg c ↔
        (cfg.threshold < phraseScore cfg ((countCorpus c).uni A)
            ((countCorpus c).uni B) ((countCorpus c).bi (A, B))
          ∧ cfg.min_count ≤ (((countCorpus c).bi (A, B) : ℕ) : ℤ))) := by
  refine ⟨rfl, ?_⟩
  have hmem : (A, B) ∈ candidateBigrams c := (mem_candidateBigrams c (A, B)).mpr h
  have hA : 0 < (countCorpus c).uni A :=
    lt_of_lt_of_le h (countCorpus_bi_le_uni_fst c A B)
  have hB : 0 < (countCorpus c).uni B :=
    lt_of_lt_of_le h (countCorpus_bi_le_uni_snd c A B)
  unfold trainPhraseTable
  rw [List.mem_filter]
  simp only [hmem, true_and]
  unfold acceptsPair
  rw [if_neg (by omega)]
  simp [Bool.and_eq_true, decide_eq_true_eq]

/-- C2: the Merger scans the sentence left to right: at each position, if
the current and next token form a key of the table it emits the merged
token and advances two positions, otherwise it emits the current token and
advances one; consequently the consumed groups are each one or two tokens,
their concatenation is exactly the input (nothing skipped or duplicated),
every two-token group is a table key (so overlaps resolve leftmost-greedily),
and the output is the groups' rendering in order. -/
theorem claim2_merger_scan (T : List (Token × Token)) (s : Sentence) :
    (∀ a b rest, mergeSentence T (a :: b :: rest) =
        if (a, b) ∈ T then mergedToken a b :: mergeSentence T rest
        else a :: mergeSentence T (b :: rest))
    ∧ (mergeChunks T s).flatten = s
    ∧ mergeSentence T s = (mergeChunks T s).map renderChunk
    ∧ ∀ ch ∈ mergeChunks T s,
        (∃ a, ch = [a]) ∨ ∃ a b, ch = [a, b] ∧ (a, b) ∈ T :=
  ⟨fun _ _ _ => by simp only [mergeSentence], mergeChunks_flatten T s,
    mergeSentence_eq_map_renderChunk T s, mergeChunks_shape T s⟩

/-- C3: for every Phrase Table and Sentence with k tokens, the Merger's
output has at least ceil(k/2) and at most k tokens. -/
theorem claim3_merger_length_bounds (T : List (Token × Token)) (s : Sentence) :
    (s.length + 1) / 2 ≤ (mergeSentence T s).length
    ∧ (mergeSentence T s).length ≤ s.length :=
  ⟨mergeSentence_length_lower T s, mergeSentence_length_le T s⟩

/-- C4: the Merger with an empty Phrase Table is the identity on every
Sentence; and when the threshold exceeds every candidate bigram's score for
a corpus, the trained Phrase Table is empty and the Merger returns every
sentence of the corpus unchanged. -/
theorem claim4_empty_table_identity (cfg : ScorerConfig) (c : Corpus)
    (h : ∀ p ∈ candidateBigrams c,
        phraseScore cfg ((countCorpus c).uni p.1) ((countCorpus c).uni p.2)
          ((countCorpus c).bi p) < cfg.threshold) :
    (∀ s : Sentence, mergeSentence [] s = s)
    ∧ trainPhraseTable cfg c = []
    ∧ ∀ s ∈ c, mergeSentence (trainPhraseTable cfg c) s = s := by
  have htable : trainPhraseTable cfg c = [] := by
    unfold trainPhraseTable
    rw [List.filter_eq_nil_iff]
    intro p hp
    have hscore := h p hp
    unfold acceptsPair
    split
    · simp
    · simp [not_lt.mpr (le_of_lt hscore)]
  exact ⟨mergeSentence_empty_table, htable, fun s _ => by
    rw [htable]; exact mergeSentence_empty_table s⟩

/-- C5: counting two corpora separately and summing the unigram and bigram
counts pointwise yields exactly the counts of the concatenated corpus. -/
theorem claim5_counter_additive (c1 c2 : Corpus) (t : Token)
    (p : Token × Token) :
    (countCorpus (c1 ++ c2)).uni t
        = (countCorpus c1).uni t + (countCorpus c2).uni t
    ∧ (countCorpus (c1 ++ c2)).bi p
        = (countCorpus c1).bi p + (countCorpus c2).bi p := by
  constructor
  · rw [countCorpus_uni, countCorpus_uni, countCorpus_uni, List.map_append,
      List.sum_append]
  · rw [countCorpus_bi, countCorpus_bi, countCorpus_bi, List.map_append,
      List.sum_append]

/-- C6: for fixed positive count(A), count(B) and fixed N and min_count,
the score is monotonically non-decreasing in count(A,B). -/
theorem claim6_score_monotone (cfg : ScorerConfig) (cA cB cAB cAB' : ℕ)
    (hA : 0 < cA) (hB : 0 < cB) (h : cAB ≤ cAB') :
    phraseScore cfg cA cB cAB ≤ phraseScore cfg cA cB cAB' := by
  unfold phraseScore
  have hden : (0 : ℚ) < (cA : ℚ) * (cB : ℚ) :=
    mul_pos (by exact_mod_cast hA) (by exact_mod_cast hB)
  have h1 : ((cAB : ℚ) - (cfg.min_count : ℚ))
      ≤ ((cAB' : ℚ) - (cfg.min_count : ℚ)) := by
    have : (cAB : ℚ) ≤ (cAB' : ℚ) := by exact_mod_cast h
    linarith
  have h2 : ((cAB : ℚ) - (cfg.min_count : ℚ)) / ((cA : ℚ) * (cB : ℚ))
      ≤ ((cAB' : ℚ) - (cfg.min_count : ℚ)) / ((cA : ℚ) * (cB : ℚ)) := by
    apply div_le_div_of_nonneg_right h1 hden.le
  exact mul_le_mul_of_nonneg_right h2 (Nat.cast_nonneg _)

/-- C7: the corpus counts satisfy
`bi(A,B) ≤ min(uni(A), uni(B))`; per sentence the Counter adds the number of
occurrences of each token to its unigram count and of each adjacent pair to
its bigram count; and empty and singleton sentences are processed without
error (the empty sentence changes nothing, a singleton adds only its one
unigram occurrence and no bigram). -/
theorem claim7_counts_invariant (c : Corpus) (x y : Token) (vc : VocabCounts)
    (s : Sentence) (t : Token) (p : Token × Token) (a : Token) :
    (countCorpus c).bi (x, y)
        ≤ min ((countCorpus c).uni x) ((countCorpus c).uni y)
    ∧ (countSentence vc s).uni t = vc.uni t + s.count t
    ∧ (countSentence vc s).bi p = vc.bi p + (bigrams s).count p
    ∧ countSentence vc [] = vc
    ∧ (countSentence vc [a]).uni t = vc.uni t + (if a = t then 1 else 0)
    ∧ (countSentence vc [a]).bi p = vc.bi p := by
  refine ⟨le_min (countCorpus_bi_le_uni_fst c x y)
      (countCorpus_bi_le_uni_snd c x y),
    countSentence_uni vc s t, countSentence_bi vc s p, rfl, ?_, ?_⟩
  · rw [countSentence_uni]
    by_cases hta : a = t <;> simp [hta, List.count_singleton]
  · rw [countSentence_bi]
    simp [bigrams]

/-- C8: constructing a Phrase Scorer yields a ConfigurationError exactly
when `threshold ≤ 0` or `min_count < 0`, and succeeds exactly when the
threshold is positive and `min_count` is non-negative. -/
theorem claim8_config_validation (threshold : ℚ) (min_count : ℤ) (N : ℕ) :
    (mkScorer threshold min_count N
        = Except.error PipelineError.configurationError
      ↔ (threshold ≤ 0 ∨ min_count < 0))
    ∧ (mkScorer threshold min_count N = Except.ok ⟨threshold, min_count, N⟩
      ↔ (0 < threshold ∧ 0 ≤ min_count)) := by
  unfold mkScorer
  constructor
  · constructor
    · intro heq
      by_contra hcond
      rw [if_neg hcond] at heq
      exact Except.noConfusion heq
    · intro hcond
      rw [if_pos hcond]
  · constructor
    · intro heq
      by_cases hcond : threshold ≤ 0 ∨ min_count < 0
      · rw [if_pos hcond] at heq
        exact Except.noConfusion heq
      · push_neg at hcond
        exact hcond
    · intro hcond
      rw [if_neg (by push_neg; exact hcond)]

/-- C9: a candidate pair whose unigram count on either side is zero is
skipped (never accepted) rather than scored, and the total score function
yields 0 there instead of faulting on the zero denominator. -/
theorem claim9_zero_denominator_skipped (cfg : ScorerConfig)
    (cA cB cAB : ℕ) (h : cA = 0 ∨ cB = 0) :
    acceptsPair cfg cA cB cAB = false ∧ phraseScore cfg cA cB cAB = 0 := by
  constructor
  · unfold acceptsPair
    rw [if_pos h]
  · unfold phraseScore
    rcases h with h | h <;> subst h <;> simp

/-- C10: every string yielded by `lemmatized_sentence_corpus` is the
space-join, in original order, of the lemmas of exactly the tokens of the
corresponding parsed sentence for which `punct_space` is false; a sentence
of only punctuation/whitespace tokens yields the empty string; and the
writing loop persists every yielded sentence, the empty string included, as
its own newline-terminated output line. -/
theorem claim10_lemmatized_corpus (reviews : List (List (List SpacyToken)))
    (sent : List SpacyToken)
    (hsent : ∀ token ∈ sent, punct_space token = true) :
    lemmatized_sentence_corpus reviews
      = (reviews.flatten).map (fun s =>
          " ".intercalate
            ((s.filter fun token => !(punct_space token)).map
              SpacyToken.lemma_))
    ∧ lemmaSentenceString sent = ""
    ∧ ∀ line rest,
        writeSentences (line :: rest) = line ++ "\n" ++ writeSentences rest := by
  refine ⟨?_, ?_, fun _ _ => rfl⟩
  · unfold lemmatized_sentence_corpus lemmaSentenceString
    rw [← List.map_flatten]
  · unfold lemmaSentenceString
    have hfil : (sent.filter fun token => !(punct_space token)) = [] := by
      rw [List.filter_eq_nil_iff]
      intro tok htok
      simp [hsent tok htok]
    rw [hfil]
    rfl

/-- The spec's scenario corpus: two tokenized sentences sharing the leading
pair (new, york). -/
def demoCorpus : Corpus :=
  [["new", "york", "city", "is", "big"], ["new", "york", "is", "great"]]

/-- The spec's scenario tunables: threshold 1, min_count 1, N 9. -/
def demoCfg : ScorerConfig := ⟨1, 1, 9⟩

/-- Witness for C1 at the spec's scenario corpus and tunables. -/
theorem claim1_scorer_decision_witness :
    0 < (countCorpus demoCorpus).bi ("new", "york")
    ∧ (phraseScore demoCfg ((countCorpus demoCorpus).uni "new")
          ((countCorpus demoCorpus).uni "york")
          ((countCorpus demoCorpus).bi ("new", "york"))
        = (((countCorpus demoCorpus).bi ("new", "york") : ℚ)
              - (demoCfg.min_count : ℚ))
            / (((countCorpus demoCorpus).uni "new" : ℚ)
              * ((countCorpus demoCorpus).uni "york" : ℚ))
            * (demoCfg.N : ℚ)
      ∧ (("new", "york") ∈ trainPhraseTable demoCfg demoCorpus ↔
          (demoCfg.threshold < phraseScore demoCfg
              ((countCorpus demoCorpus).uni "new")
              ((countCorpus demoCorpus).uni "york")
              ((countCorpus demoCorpus).bi ("new", "york"))
            ∧ demoCfg.min_count
              ≤ (((countCorpus demoCorpus).bi ("new", "york") : ℕ) : ℤ)))) :=
  ⟨by decide, claim1_scorer_decision demoCfg demoCorpus "new" "york" (by decide)⟩

/-- Witness for C4 on a one-sentence corpus whose only candidate bigram
scores 0, below the threshold 10. -/
theorem claim4_empty_table_identity_witness :
    (∀ p ∈ candidateBigrams [["a", "b"]],
        phraseScore ⟨10, 1, 2⟩ ((countCorpus [["a", "b"]]).uni p.1)
            ((countCorpus [["a", "b"]]).uni p.2)
            ((countCorpus [["a", "b"]]).bi p)
          < (ScorerConfig.mk 10 1 2).threshold)
    ∧ ((∀ s : Sentence, mergeSentence [] s = s)
      ∧ trainPhraseTable ⟨10, 1, 2⟩ [["a", "b"]] = []
      ∧ ∀ s ∈ [["a", "b"]],
          mergeSentence (trainPhraseTable ⟨10, 1, 2⟩ [["a", "b"]]) s = s) := by
  have hh : ∀ p ∈ candidateBigrams [["a", "b"]],
      phraseScore ⟨10, 1, 2⟩ ((countCorpus [["a", "b"]]).uni p.1)
          ((countCorpus [["a", "b"]]).uni p.2)
          ((countCorpus [["a", "b"]]).bi p)
        < (ScorerConfig.mk 10 1 2).threshold := by
    intro p hp
    have hc : candidateBigrams [["a", "b"]] = [("a", "b")] := by decide
    rw [hc] at hp
    have hpe : p = ("a", "b") := by simpa using hp
    subst hpe
    have h1 : (countCorpus [["a", "b"]]).uni ("a", "b").1 = 1 := by decide
    have h2 : (countCorpus [["a", "b"]]).uni ("a", "b").2 = 1 := by decide
    have h3 : (countCorpus [["a", "b"]]).bi ("a", "b") = 1 := by decide
    rw [h1, h2, h3]
    norm_num [phraseScore]
  exact ⟨hh, claim4_empty_table_identity ⟨10, 1, 2⟩ [["a", "b"]] hh⟩

/-- Witness for C6 at counts 2, 2 and bigram counts 2 ≤ 3. -/
theorem claim6_score_monotone_witness :
    0 < 2 ∧ 0 < 2 ∧ 2 ≤ 3
    ∧ phraseScore ⟨1, 1, 4⟩ 2 2 2 ≤ phraseScore ⟨1, 1, 4⟩ 2 2 3 :=
  ⟨by decide, by decide, by decide,
    claim6_score_monotone ⟨1, 1, 4⟩ 2 2 2 3 (by decide) (by decide) (by decide)⟩

/-- Witness for C9 at a pair whose left unigram count is zero. -/
theorem claim9_zero_denominator_skipped_witness :
    ((0 : ℕ) = 0 ∨ (5 : ℕ) = 0)
    ∧ acceptsPair ⟨1, 1, 1⟩ 0 5 3 = false ∧ phraseScore ⟨1, 1, 1⟩ 0 5 3 = 0 :=
  ⟨Or.inl rfl, claim9_zero_denominator_skipped ⟨1, 1, 1⟩ 0 5 3 (Or.inl rfl)⟩

/-- A one-review corpus whose single parsed sentence has one word token and
one punctuation token. -/
def demoReviews : List (List (List SpacyToken)) :=
  [[[⟨"the", false, false⟩, ⟨".", true, false⟩]]]

/-- A parsed sentence consisting only of a punctuation token. -/
def demoPunctSent : List SpacyToken := [⟨".", true, false⟩]

/-- Witness for C10 at a concrete parsed review and an all-punctuation
sentence. -/
theorem claim10_lemmatized_corpus_witness :
    (∀ token ∈ demoPunctSent, punct_space token = true)
    ∧ (lemmatized_sentence_corpus demoReviews
        = (demoReviews.flatten).map (fun s =>
            " ".intercalate
              ((s.filter fun token => !(punct_space token)).map
                SpacyToken.lemma_))
      ∧ lemmaSentenceString demoPunctSent = ""
      ∧ ∀ line rest,
          writeSentences (line :: rest)
            = line ++ "\n" ++ writeSentences rest) :=
  ⟨by decide, claim10_lemmatized_corpus demoReviews demoPunctSent (by decide)⟩
